import Mathlib

/-!
# Verification of the Lotka-Volterra fitness evaluator (`examples/lotka.py`)

A shallow embedding of the fitness evaluator of the fast-cma-es example
`examples/lotka.py`, together with proofs about the decoding of decision
vectors into event schedules, the hybrid simulation loop, the scoring loop
and the shared best-value / evaluation-count bookkeeping.

Real numbers of the source are modelled as rationals `ℚ`; the external
scipy integrator (`ode(...).integrate`) is an abstract parameter
`prop : ℚ → ℚ → (ℚ × ℚ) → ℚ × ℚ` propagating a state from one time to
another, since its numerics are not part of this program.
-/

namespace Lotka

/-- Model parameters from the source: `a = 1.`. -/
def a : ℚ := 1

/-- Parameter `b = 0.1`. -/
def b : ℚ := 1/10

/-- Parameter `c = 1.5`. -/
def c : ℚ := 3/2

/-- Parameter `d = b*0.75`. -/
def d : ℚ := b * (3/4)

/-- Initial population `pop0 = [10, 5]`: 10 rabbits and 5 foxes. -/
def pop0 : ℚ × ℚ := (10, 5)

/-- Horizon `dim = 20`: the number of years (the horizon length of the reference
scenario). -/
def dim : ℕ := 20

/-- The Lotka-Volterra vector field
`lotkavolterra(t, pop, a, b, c, d) = [a*x - b*x*y, -c*y + d*x*y]`. -/
def lotkavolterra (_t : ℚ) (pop : ℚ × ℚ) (a b c d : ℚ) : ℚ × ℚ :=
  (a * pop.1 - b * pop.1 * pop.2, -c * pop.2 + d * pop.1 * pop.2)

/-- An abstract propagator standing for the external integrator:
`prop tFrom tTo y` is the state reached at time `tTo` when starting from
state `y` at time `tFrom`. -/
def Propagator : Type := ℚ → ℚ → ℚ × ℚ → ℚ × ℚ

/-- The internal state of one `scipy.integrate.ode` object: the current
time `t` and the current state `y` (set by `set_initial_value` and advanced
by `integrate`). -/
structure IState where
  t : ℚ
  y : ℚ × ℚ
  deriving DecidableEq, Repr

/-- The call `I.integrate(t)`: advance the integrator's internal state to time `t`
(the Python call also returns the new state; here the caller reads `.y`). -/
def integrate (prop : Propagator) (I : IState) (t : ℚ) : IState :=
  ⟨t, prop I.t t I.y⟩

/-- The event-decoding loop of `fitness`, with the running `enumerate`
index made explicit:
`for year, x in enumerate(X): if x > 0: ts.append(t0 + year + x)`
(`t0 = 0`). -/
def eventTimesAux : ℕ → List ℚ → List ℚ
  | _, [] => []
  | year, x :: rest =>
      if 0 < x then ((year : ℚ) + x) :: eventTimesAux (year + 1) rest
      else eventTimesAux (year + 1) rest

/-- The intervention event times decoded from a decision vector `X`. -/
def eventTimes (X : List ℚ) : List ℚ :=
  eventTimesAux 0 X

/-- The full event schedule `ts`: the decoded intervention times followed
by the end time `t1 = len(X)` (`ts.append(t1)`). -/
def schedule (X : List ℚ) : List ℚ :=
  eventTimes X ++ [(X.length : ℚ)]

/-- The discrete transition `pop[1] = max(1, pop[1]-1)`:
kill one fox, but keep at least one. -/
def killFox (pop : ℚ × ℚ) : ℚ × ℚ :=
  (pop.1, max 1 (pop.2 - 1))

/-- The event-driven simulation loop of `fitness`:
`for i in range(len(ts)): pop = integrate(I, ts[i]);
 if i < len(ts)-1: pop[1] = max(1, pop[1]-1); I.set_initial_value(pop, ts[i])`. -/
def simLoop (prop : Propagator) : IState → List ℚ → IState
  | I, [] => I
  | I, t :: rest =>
      let I1 := integrate prop I t
      if rest = [] then I1
      else simLoop prop ⟨t, killFox I1.y⟩ rest

/-- Model of `np.linspace a b n`: `n` evenly spaced points from `a` to `b`,
endpoints included. -/
def linspace (lo hi : ℚ) (n : ℕ) : List ℚ :=
  (List.range n).map (fun k : ℕ => lo + (hi - lo) * (k : ℚ) / ((n : ℚ) - 1))

/-- The scoring loop of `fitness`, threading the running maximum:
`for t in np.linspace(t1, t1 + 5, 50): pop = integrate(I, t);
 max_rabbits = max(max_rabbits, pop[0])`. -/
def scoreLoop (prop : Propagator) : IState → ℚ → List ℚ → IState × ℚ
  | I, m, [] => (I, m)
  | I, m, t :: rest =>
      let I1 := integrate prop I t
      scoreLoop prop I1 (max m I1.y.1) rest

/-- The rabbit components observed by the scoring loop, sample by sample
(same chained `integrate` calls as `scoreLoop`, without the `max` fold). -/
def sampleRewards (prop : Propagator) : IState → List ℚ → List ℚ
  | _, [] => []
  | I, t :: rest =>
      let I1 := integrate prop I t
      I1.y.1 :: sampleRewards prop I1 rest

/-- The scalar value computed by `fitness(X)` for a given propagator and
initial population: decode, simulate the events, then score
`value = -max_rabbits` over `np.linspace(t1, t1 + 5, 50)`. -/
def fitnessCore (prop : Propagator) (p0 : ℚ × ℚ) (X : List ℚ) : ℚ :=
  let ts := schedule X
  let If := simLoop prop ⟨0, p0⟩ ts
  let tl := (X.length : ℚ)
  Neg.neg (scoreLoop prop If 0 (linspace tl (tl + 5) 50)).2

/-- The value `fitness(X)` returns with the module's initial population
`pop0`. -/
def fitnessVal (prop : Propagator) (X : List ℚ) : ℚ :=
  fitnessCore prop pop0 X

/-- The scoring value as the spec words it (for comparison with
`fitnessVal`): the negative of the maximum of the reward component over
the 50 samples alone, with no extra floor. -/
def specScore (prop : Propagator) (X : List ℚ) : ℚ :=
  let If := simLoop prop ⟨0, pop0⟩ (schedule X)
  let tl := (X.length : ℚ)
  let rewards := sampleRewards prop If (linspace tl (tl + 5) 50)
  Neg.neg (rewards.foldl max rewards.headI)

/-- The rejection threshold `1E99` appearing in
`if value < bval.value and value < 1E99`. -/
def BIG : ℚ := 10 ^ 99

/-- The process-shared bookkeeping state: `bval` (best value so far,
initialised to `1E99`) and `evals` (number of evaluations). -/
structure Shared where
  bval : ℚ
  evals : ℕ
  deriving DecidableEq, Repr

/-- The bookkeeping tail of `fitness`:
`evals.value += 1; if value < bval.value and value < 1E99:
 bval.value = value`. -/
def record (s : Shared) (value : ℚ) : Shared :=
  let s1 : Shared := ⟨s.bval, s.evals + 1⟩
  if value < s1.bval ∧ value < BIG then ⟨value, s1.evals⟩ else s1

/-- One full `fitness` call: the returned value together with the updated
shared state. -/
def fitness (prop : Propagator) (X : List ℚ) (s : Shared) : ℚ × Shared :=
  (fitnessVal prop X, record s (fitnessVal prop X))

/-- All module-level data `fitness` can reach: the model parameters
`a b c d` (fed to the integrator by `set_f_params`), the initial
population `pop0`, the bounds arrays, and the shared `bval` / `evals`
cells. Used to state the frame of one `fitness` call. -/
structure Globals where
  ga : ℚ
  gb : ℚ
  gc : ℚ
  gd : ℚ
  gpop0 : ℚ × ℚ
  lower : List ℚ
  upper : List ℚ
  gbval : ℚ
  gevals : ℕ
  deriving DecidableEq, Repr

/-- One `fitness` call with the module globals made explicit. The
integrator family `mkProp` models `integrator()` with
`set_f_params(a, b, c, d)`; the call returns the value and the
post-call globals. -/
def fitnessG (mkProp : ℚ → ℚ → ℚ → ℚ → Propagator) (g : Globals)
    (X : List ℚ) : ℚ × Globals :=
  let value := fitnessCore (mkProp g.ga g.gb g.gc g.gd) g.gpop0 X
  let g1 : Globals := { g with gevals := g.gevals + 1 }
  if value < g1.gbval ∧ value < BIG then (value, { g1 with gbval := value })
  else (value, g1)

/-- A fallible propagator: `none` models the external integrator raising
an exception during `I.integrate(t)`. -/
def PropagatorO : Type := ℚ → ℚ → ℚ × ℚ → Option (ℚ × ℚ)

/-- The call `integrate(I, t)` with a fallible integrator: the warning filter in
`integrate` suppresses warnings only; an exception passes through. -/
def integrateO (propO : PropagatorO) (I : IState) (t : ℚ) : Option IState :=
  (propO I.t t I.y).map (fun y => ⟨t, y⟩)

/-- The event-driven simulation loop with Python exception semantics:
an exception inside any `integrate` call aborts the loop (`none`). -/
def simLoopO (propO : PropagatorO) : IState → List ℚ → Option IState
  | I, [] => some I
  | I, t :: rest =>
      (integrateO propO I t).bind (fun I1 =>
        if rest = [] then some I1
        else simLoopO propO ⟨t, killFox I1.y⟩ rest)

/-- The scoring loop with Python exception semantics. -/
def scoreLoopO (propO : PropagatorO) :
    IState → ℚ → List ℚ → Option (IState × ℚ)
  | I, m, [] => some (I, m)
  | I, m, t :: rest =>
      (integrateO propO I t).bind (fun I1 =>
        scoreLoopO propO I1 (max m I1.y.1) rest)

/-- One `fitness` call with a fallible integrator. `fitness` contains no
`try`/`except`: if any `integrate` call raises, the exception escapes the
function before the bookkeeping lines run, so the result is `none` and the
shared state is returned unchanged only in the sense that no update ever
happened. -/
def fitnessO (propO : PropagatorO) (X : List ℚ) (s : Shared) :
    Option (ℚ × Shared) :=
  (simLoopO propO ⟨0, pop0⟩ (schedule X)).bind (fun If =>
    (scoreLoopO propO If 0
        (linspace (X.length : ℚ) ((X.length : ℚ) + 5) 50)).bind (fun r =>
      some (Neg.neg r.2, record s (Neg.neg r.2))))

/-- One atomic machine action of the unsynchronised increment
`evals.value += 1` performed by one of two concurrent `fitness` calls on
the shared `mp.RawValue` cell: each call first reads the cell into a
private register, then writes back `register + 1`. `mp.RawValue` carries
no lock, so reads and writes of different calls may interleave. -/
inductive IncAction
  | readA
  | writeA
  | readB
  | writeB
  deriving DecidableEq, Repr

/-- Shared counter cell plus the two calls' private registers. -/
structure IncState where
  cell : ℕ
  regA : ℕ
  regB : ℕ
  deriving DecidableEq, Repr

/-- The effect of one atomic action on the counter state. -/
def incStep (s : IncState) : IncAction → IncState
  | .readA => { s with regA := s.cell }
  | .writeA => { s with cell := s.regA + 1 }
  | .readB => { s with regB := s.cell }
  | .writeB => { s with cell := s.regB + 1 }

/-- Run an interleaving of the atomic actions of the two increments. -/
def runInc (l : List IncAction) (s : IncState) : IncState :=
  l.foldl incStep s

/-! ## Structural lemmas about the decoded event times -/

/-- Every decoded event time with slots counted from `k` is strictly
greater than `k`: slot `year ≥ k` contributes `year + x` with `x > 0`. -/
theorem mem_eventTimesAux_gt (Y : List ℚ) : ∀ (k : ℕ) (t : ℚ),
    t ∈ eventTimesAux k Y → (k : ℚ) < t := by
  induction Y with
  | nil => intro k t ht; simp [eventTimesAux] at ht
  | cons x rest ih =>
      intro k t ht
      by_cases hx : 0 < x
      · simp only [eventTimesAux, if_pos hx, List.mem_cons] at ht
        rcases ht with h | h
        · subst h; linarith
        · have := ih (k + 1) t h
          push_cast at this ⊢
          linarith
      · simp only [eventTimesAux, if_neg hx] at ht
        have := ih (k + 1) t ht
        push_cast at this ⊢
        linarith

/-- When every entry is at most `1` and the last entry is below `1`,
every decoded event time stays strictly below the horizon end. -/
theorem mem_eventTimesAux_lt_end (Y : List ℚ) : ∀ (k : ℕ) (t : ℚ),
    (∀ x ∈ Y, x ≤ 1) → (∀ hne : Y ≠ [], Y.getLast hne < 1) →
    t ∈ eventTimesAux k Y → t < (k : ℚ) + Y.length := by
  induction Y with
  | nil => intro k t _ _ ht; simp [eventTimesAux] at ht
  | cons x rest ih =>
      intro k t hle hlast ht
      by_cases hrne : rest = []
      · subst hrne
        have hx1 : x < 1 := by simpa using hlast (by simp)
        by_cases hx : 0 < x
        · simp only [eventTimesAux, if_pos hx, List.mem_cons] at ht
          rcases ht with h | h
          · subst h
            simp only [List.length_cons, List.length_nil]
            push_cast
            linarith
          · simp [eventTimesAux] at h
        · simp only [eventTimesAux, if_neg hx] at ht
          simp [eventTimesAux] at ht
      · have hlast' : ∀ hne : rest ≠ [], rest.getLast hne < 1 := by
          intro hne
          have := hlast (by simp)
          rwa [List.getLast_cons hne] at this
        have hle' : ∀ y ∈ rest, y ≤ 1 := fun y hy => hle y (by simp [hy])
        have h1 : (1 : ℚ) ≤ rest.length := by
          have : 1 ≤ rest.length := List.length_pos.mpr hrne
          exact_mod_cast this
        by_cases hx : 0 < x
        · simp only [eventTimesAux, if_pos hx, List.mem_cons] at ht
          rcases ht with h | h
          · subst h
            have hx1 : x ≤ 1 := hle x (by simp)
            simp only [List.length_cons]
            push_cast
            linarith
          · have := ih (k + 1) t hle' hlast' h
            simp only [List.length_cons]
            push_cast at this ⊢
            linarith
        · simp only [eventTimesAux, if_neg hx] at ht
          have := ih (k + 1) t hle' hlast' ht
          simp only [List.length_cons]
          push_cast at this ⊢
          linarith

/-- When every entry is at most `1`, the decoded event times are strictly
increasing among themselves: slot `i` contributes a time in `(i, i+1]`
and later slots contribute strictly larger times. -/
theorem sorted_eventTimesAux (Y : List ℚ) : ∀ k : ℕ,
    (∀ x ∈ Y, x ≤ 1) → List.Sorted (· < ·) (eventTimesAux k Y) := by
  induction Y with
  | nil => intro k _; simp [eventTimesAux]
  | cons x rest ih =>
      intro k hle
      have hle' : ∀ y ∈ rest, y ≤ 1 := fun y hy => hle y (by simp [hy])
      by_cases hx : 0 < x
      · simp only [eventTimesAux, if_pos hx]
        refine List.sorted_cons.mpr ⟨?_, ih (k + 1) hle'⟩
        intro t ht
        have hgt := mem_eventTimesAux_gt rest (k + 1) t ht
        have hx1 : x ≤ 1 := hle x (by simp)
        push_cast at hgt ⊢
        linarith
      · simp only [eventTimesAux, if_neg hx]
        exact ih (k + 1) hle'

/-- The decoding loop written as `enumerate`-filter-map. -/
theorem eventTimesAux_eq_map_filter (X : List ℚ) : ∀ k : ℕ,
    eventTimesAux k X
      = ((X.enumFrom k).filter (fun p => 0 < p.2)).map
          (fun p => ((p.1 : ℚ) + p.2)) := by
  induction X with
  | nil => intro k; rfl
  | cons x rest ih =>
      intro k
      by_cases hx : 0 < x
      · simp [eventTimesAux, List.enumFrom, hx, ih (k + 1)]
      · simp [eventTimesAux, List.enumFrom, hx, ih (k + 1)]

/-- The number of decoded events equals the number of strictly positive
entries. -/
theorem length_eventTimesAux (X : List ℚ) : ∀ k : ℕ,
    (eventTimesAux k X).length = (X.filter (fun x => 0 < x)).length := by
  induction X with
  | nil => intro k; rfl
  | cons x rest ih =>
      intro k
      by_cases hx : 0 < x
      · simp [eventTimesAux, List.filter_cons, hx, ih (k + 1)]
      · simp [eventTimesAux, List.filter_cons, hx, ih (k + 1)]

/-- A vector with no strictly positive entry decodes to no events. -/
theorem eventTimesAux_of_nonpos (X : List ℚ) (h : ∀ x ∈ X, x ≤ 0) :
    ∀ k : ℕ, eventTimesAux k X = [] := by
  induction X with
  | nil => intro k; rfl
  | cons x rest ih =>
      intro k
      have hx : ¬ 0 < x := not_lt.mpr (h x (by simp))
      simp only [eventTimesAux, if_neg hx]
      exact ih (fun y hy => h y (by simp [hy])) (k + 1)

/-! ## Claim C1: schedule strictly increasing, ends at the horizon end -/

/-- C1 (amended): for a decision vector whose entries lie in `[-1, 1]`
and whose last entry is strictly below `1`, the decoded event schedule is
strictly increasing and its last element is the horizon end `len X`. The
restriction on the last entry is forced: a last entry equal to `1` (still
inside the bounds `[-1, 1]`) makes the final event time coincide with the
appended horizon end, so the schedule is not strictly increasing there. -/
theorem schedule_sorted_and_ends_at_dim (X : List ℚ)
    (hb : ∀ x ∈ X, -1 ≤ x ∧ x ≤ 1)
    (hlast : ∀ hne : X ≠ [], X.getLast hne < 1) :
    List.Sorted (· < ·) (schedule X)
      ∧ (schedule X).getLast? = some (X.length : ℚ) := by
  constructor
  · have hle : ∀ x ∈ X, x ≤ 1 := fun x hx => (hb x hx).2
    have h1 : List.Pairwise (· < ·) (eventTimes X) :=
      sorted_eventTimesAux X 0 hle
    have h2 : List.Pairwise (· < ·) [(X.length : ℚ)] := by simp
    have h3 : ∀ s ∈ eventTimes X, ∀ u ∈ [(X.length : ℚ)], s < u := by
      intro s hs u hu
      have := mem_eventTimesAux_lt_end X 0 s hle hlast hs
      simp only [List.mem_singleton] at hu
      subst hu
      simpa using this
    exact List.pairwise_append.mpr ⟨h1, h2, h3⟩
  · unfold schedule
    simp

/-- Witness for C1: a concrete in-bounds vector with last entry below 1. -/
theorem schedule_sorted_and_ends_at_dim_witness :
    List.Sorted (· < ·) (schedule [(1/2 : ℚ), -1/2, 1/2])
      ∧ (schedule [(1/2 : ℚ), -1/2, 1/2]).getLast? = some 3 := by
  have h := schedule_sorted_and_ends_at_dim [(1/2 : ℚ), -1/2, 1/2]
    (by
      intro x hx
      simp only [List.mem_cons, List.not_mem_nil, or_false] at hx
      rcases hx with rfl | rfl | rfl <;> norm_num)
    (by intro hne; norm_num [List.getLast])
  simpa using h

/-- Counterexample to C1 as stated: `X = [1]` has all entries inside
`[-1, 1]`, yet the decoded schedule `[1, 1]` is not strictly increasing
(the event `0 + 1` collides with the appended horizon end `dim = 1`). -/
theorem schedule_not_sorted_at_upper_bound :
    ((-1 : ℚ) ≤ 1 ∧ (1 : ℚ) ≤ 1)
      ∧ schedule [(1 : ℚ)] = [1, 1]
      ∧ ¬ List.Sorted (· < ·) (schedule [(1 : ℚ)]) := by
  have hs : schedule [(1 : ℚ)] = [1, 1] := by
    norm_num [schedule, eventTimes, eventTimesAux]
  refine ⟨⟨by norm_num, le_refl 1⟩, hs, ?_⟩
  rw [hs]
  simp [List.sorted_cons]

/-! ## Claim C3: the fox-killing transition and its floor -/

/-- C3: at every non-terminal schedule entry the simulation loop applies
exactly the transition `killFox`, which replaces the fox component `y` by
`max 1 (y - 1)`; the post-transition fox component is always at least `1`,
and equals `1` when the pre-transition value is exactly `1`. -/
theorem killFox_applied_and_floored :
    (∀ (prop : Propagator) (I : IState) (t : ℚ) (rest : List ℚ),
        rest ≠ [] →
        simLoop prop I (t :: rest)
          = simLoop prop ⟨t, killFox (integrate prop I t).y⟩ rest)
      ∧ (∀ p : ℚ × ℚ, killFox p = (p.1, max 1 (p.2 - 1)))
      ∧ (∀ p : ℚ × ℚ, 1 ≤ (killFox p).2)
      ∧ (∀ x : ℚ, (killFox (x, 1)).2 = 1) := by
  refine ⟨?_, ?_, ?_, ?_⟩
  · intro prop I t rest hne
    simp [simLoop, hne]
  · intro p; rfl
  · intro p
    simp [killFox]
  · intro x
    simp [killFox]

/-- Witness for C3 at a concrete non-terminal step. -/
theorem killFox_applied_and_floored_witness :
    simLoop (fun _ _ s => s) ⟨0, pop0⟩ (1 :: [2])
        = simLoop (fun _ _ s => s)
            ⟨1, killFox (integrate (fun _ _ s => s) ⟨0, pop0⟩ 1).y⟩ [2]
      ∧ 1 ≤ (killFox (10, 1)).2 := by
  exact ⟨killFox_applied_and_floored.1 _ _ 1 [2] (by simp),
    killFox_applied_and_floored.2.2.1 (10, 1)⟩

/-! ## Claim C4: exact shape of the decoded schedule -/

/-- C4: the schedule is exactly the times `i + X[i]` for the indices `i`
with `X[i] > 0`, in index order, followed by the terminal time `len X`;
its length is the number of strictly positive entries plus one; and when
every entry is nonpositive it is the one-element list `[len X]`. -/
theorem schedule_shape (X : List ℚ) :
    schedule X
        = ((X.enum.filter (fun p => 0 < p.2)).map
            (fun p => ((p.1 : ℚ) + p.2))) ++ [(X.length : ℚ)]
      ∧ (schedule X).length = (X.filter (fun x => 0 < x)).length + 1
      ∧ ((∀ x ∈ X, x ≤ 0) → schedule X = [(X.length : ℚ)]) := by
  refine ⟨?_, ?_, ?_⟩
  · unfold schedule eventTimes
    rw [eventTimesAux_eq_map_filter X 0]
    rfl
  · unfold schedule eventTimes
    simp [length_eventTimesAux X 0]
  · intro h
    unfold schedule eventTimes
    rw [eventTimesAux_of_nonpos X h 0]
    rfl

/-- Witness for C4 on an all-nonpositive vector: terminal-only schedule. -/
theorem schedule_shape_witness :
    schedule [(-1/2 : ℚ), -1] = [(2 : ℚ)] := by
  have h := (schedule_shape [(-1/2 : ℚ), -1]).2.2
    (by
      intro x hx
      simp only [List.mem_cons, List.not_mem_nil, or_false] at hx
      rcases hx with rfl | rfl <;> norm_num)
  simpa using h

/-! ## Lemmas about the scoring loop and the bookkeeping -/

/-- The schedule always contains at least the terminal entry. -/
theorem schedule_ne_nil (X : List ℚ) : schedule X ≠ [] := by
  simp [schedule]

/-- The running maximum of the scoring loop is the `max`-fold of the
observed rewards. -/
theorem scoreLoop_eq_foldl (prop : Propagator) :
    ∀ (l : List ℚ) (I : IState) (m : ℚ),
      (scoreLoop prop I m l).2 = (sampleRewards prop I l).foldl max m := by
  intro l
  induction l with
  | nil => intro I m; rfl
  | cons t rest ih => intro I m; simp [scoreLoop, sampleRewards, ih]

/-- The scoring loop never lowers the running maximum. -/
theorem scoreLoop_le (prop : Propagator) :
    ∀ (l : List ℚ) (I : IState) (m : ℚ), m ≤ (scoreLoop prop I m l).2 := by
  intro l
  induction l with
  | nil => intro I m; exact le_refl m
  | cons t rest ih =>
      intro I m
      calc m ≤ max m (integrate prop I t).y.1 := le_max_left _ _
        _ ≤ _ := ih _ _

/-- The value `fitness` returns is never positive: the running maximum
starts at `0` and only grows, and the result is its negation. -/
theorem fitnessCore_nonpos (prop : Propagator) (p0 : ℚ × ℚ)
    (X : List ℚ) : fitnessCore prop p0 X ≤ 0 := by
  unfold fitnessCore
  have h := scoreLoop_le prop
    (linspace (X.length : ℚ) ((X.length : ℚ) + 5) 50)
    (simLoop prop ⟨0, p0⟩ (schedule X)) 0
  simp only [neg_nonpos]
  exact h

/-- A constant integrator makes the observed rewards a constant list. -/
theorem sampleRewards_const (y : ℚ × ℚ) :
    ∀ (l : List ℚ) (I : IState),
      sampleRewards (fun _ _ _ => y) I l = List.replicate l.length y.1 := by
  intro l
  induction l with
  | nil => intro I; rfl
  | cons t rest ih =>
      intro I
      simp [sampleRewards, integrate, ih, List.replicate]

/-- Folding `max` over a constant list. -/
theorem foldl_max_replicate (a : ℚ) :
    ∀ (n : ℕ) (m : ℚ),
      (List.replicate n a).foldl max m = if n = 0 then m else max m a := by
  intro n
  induction n with
  | zero => intro m; rfl
  | succ k ih =>
      intro m
      simp only [List.replicate, List.foldl_cons, ih]
      rcases Nat.eq_zero_or_pos k with hk | hk
      · simp [hk]
      · have : k ≠ 0 := Nat.pos_iff_ne_zero.mp hk
        simp [this, max_assoc]

/-- The number of samples. -/
theorem linspace_length (lo hi : ℚ) (n : ℕ) : (linspace lo hi n).length = n := by
  unfold linspace
  rw [List.length_map, List.length_range]

/-- The `k`-th sample time. -/
theorem linspace_getElem (lo hi : ℚ) (n k : ℕ) (hk : k < n) :
    (linspace lo hi n)[k]? = some (lo + (hi - lo) * k / ((n : ℚ) - 1)) := by
  unfold linspace
  rw [List.getElem?_map, List.getElem?_range hk]
  rfl

/-- Each bookkeeping step increments the evaluation count by one. -/
theorem record_evals (s : Shared) (v : ℚ) :
    (record s v).evals = s.evals + 1 := by
  simp only [record]
  split <;> rfl

/-- After a sequence of bookkeeping steps the count grew by the number of
steps. -/
theorem record_foldl_evals (vs : List ℚ) :
    ∀ s : Shared, (vs.foldl record s).evals = s.evals + vs.length := by
  induction vs with
  | nil => intro s; rfl
  | cons v rest ih =>
      intro s
      simp only [List.foldl_cons, List.length_cons, ih, record_evals]
      omega

/-- The best value after a sequence of bookkeeping steps is the
`min`-fold of the values below the rejection threshold. -/
theorem record_foldl_bval (vs : List ℚ) :
    ∀ (b : ℚ) (e : ℕ),
      (vs.foldl record ⟨b, e⟩).bval
        = (vs.filter (fun v => v < BIG)).foldl min b := by
  induction vs with
  | nil => intro b e; rfl
  | cons v rest ih =>
      intro b e
      by_cases hv : v < BIG
      · rw [List.foldl_cons, List.filter_cons, if_pos (by simpa using hv),
          List.foldl_cons]
        by_cases hvb : v < b
        · have hr : record ⟨b, e⟩ v = ⟨v, e + 1⟩ := by
            simp [record, hv, hvb]
          rw [hr, ih, min_eq_right (le_of_lt hvb)]
        · have hr : record ⟨b, e⟩ v = ⟨b, e + 1⟩ := by
            simp [record, hvb]
          rw [hr, ih, min_eq_left (not_lt.mp hvb)]
      · rw [List.foldl_cons, List.filter_cons, if_neg (by simpa using hv)]
        have hr : record ⟨b, e⟩ v = ⟨b, e + 1⟩ := by
          simp [record, hv]
        rw [hr, ih]

/-- A `min`-fold is a lower bound of its start and of every element, and
is either the start or an element. -/
theorem foldl_min_facts :
    ∀ (l : List ℚ) (b : ℚ),
      l.foldl min b ≤ b ∧ (∀ u ∈ l, l.foldl min b ≤ u)
        ∧ (l.foldl min b = b ∨ l.foldl min b ∈ l) := by
  intro l
  induction l with
  | nil => intro b; simp
  | cons v rest ih =>
      intro b
      obtain ⟨h1, h2, h3⟩ := ih (min b v)
      refine ⟨le_trans h1 (min_le_left b v), ?_, ?_⟩
      · intro u hu
        rcases List.mem_cons.mp hu with rfl | hu
        · exact le_trans h1 (min_le_right b u)
        · exact h2 u hu
      · rcases h3 with h | h
        · rcases le_total b v with hbv | hvb
          · exact Or.inl (by rw [List.foldl_cons, h, min_eq_left hbv])
          · exact Or.inr (by
              rw [List.foldl_cons, h, min_eq_right hvb]
              exact List.mem_cons_self v rest)
        · exact Or.inr (List.mem_cons_of_mem v h)

/-- A never-failing integrator makes the simulation loop succeed with the
pure result. -/
theorem simLoopO_total (prop : Propagator) :
    ∀ (l : List ℚ) (I : IState),
      simLoopO (fun u v y => some (prop u v y)) I l
        = some (simLoop prop I l) := by
  intro l
  induction l with
  | nil => intro I; rfl
  | cons t rest ih =>
      intro I
      by_cases h : rest = []
      · subst h; rfl
      · simp [simLoopO, simLoop, integrateO, integrate, h, ih]

/-- A never-failing integrator makes the scoring loop succeed with the
pure result. -/
theorem scoreLoopO_total (prop : Propagator) :
    ∀ (l : List ℚ) (I : IState) (m : ℚ),
      scoreLoopO (fun u v y => some (prop u v y)) I m l
        = some (scoreLoop prop I m l) := by
  intro l
  induction l with
  | nil => intro I m; rfl
  | cons t rest ih =>
      intro I m
      simp [scoreLoopO, scoreLoop, integrateO, integrate, ih]

/-! ## Claim C2: behaviour on integration failure -/

/-- C2 (amended): `fitness` contains no error handling. With an
integrator that raises, the exception propagates out of the evaluator
(`none`): no sentinel rejected value is produced and no shared-state
update (in particular no `evalCount` increment) happens, because the
bookkeeping lines sit after the integration loops. With a never-failing
integrator the call returns its value and increments the count. -/
theorem fitness_no_error_handling :
    (∀ (X : List ℚ) (s : Shared), fitnessO (fun _ _ _ => none) X s = none)
      ∧ (∀ (prop : Propagator) (X : List ℚ) (s : Shared),
          fitnessO (fun u v y => some (prop u v y)) X s
            = some (fitness prop X s)) := by
  constructor
  · intro X s
    obtain ⟨t, rest, hts⟩ := List.exists_cons_of_ne_nil (schedule_ne_nil X)
    unfold fitnessO
    rw [hts]
    simp [simLoopO, integrateO]
  · intro prop X s
    simp only [fitnessO, simLoopO_total, scoreLoopO_total, Option.some_bind]
    rfl

/-- Counterexample to C2 as stated: with a failing integrator the call on
the in-bounds vector `[-1]` returns no value at all (the exception
escapes), rather than a large finite sentinel, and the shared state is
never touched. -/
theorem fitness_propagates_failure :
    fitnessO (fun _ _ _ => none) [(-1 : ℚ)] ⟨BIG, 0⟩ = none := by
  norm_num [fitnessO, schedule, eventTimes, eventTimesAux, simLoopO,
    integrateO]

/-! ## Claim C5: where the transition is applied -/

/-- C5 (amended): the simulation loop applies no transition at the last
schedule entry (the guard is positional, `i < len(ts)-1`); and under the
conditions of C1 (entries at most `1`, last entry below `1`) every
decoded event time, hence every transition time, is strictly below the
horizon end. Equality of an event time with the horizon end is possible
(last entry exactly `1`) and then a transition is applied at the
horizon-end time, so the positional guard is not a temporal one. -/
theorem no_transition_at_terminal :
    (∀ (prop : Propagator) (I : IState) (t : ℚ),
        simLoop prop I [t] = integrate prop I t)
      ∧ (∀ X : List ℚ, (∀ x ∈ X, x ≤ 1) →
          (∀ hne : X ≠ [], X.getLast hne < 1) →
          ∀ t ∈ eventTimes X, t < (X.length : ℚ)) := by
  constructor
  · intro prop I t
    simp [simLoop]
  · intro X hle hlast t ht
    simpa using mem_eventTimesAux_lt_end X 0 t hle hlast ht

/-- Witness for C5 at concrete inputs. -/
theorem no_transition_at_terminal_witness :
    simLoop (fun _ _ s => s) ⟨0, pop0⟩ [5]
        = integrate (fun _ _ s => s) ⟨0, pop0⟩ 5
      ∧ ∀ t ∈ eventTimes [(1/2 : ℚ)], t < (1 : ℚ) := by
  refine ⟨no_transition_at_terminal.1 _ _ 5, ?_⟩
  intro t ht
  have h := no_transition_at_terminal.2 [(1/2 : ℚ)]
    (by
      intro x hx
      simp only [List.mem_cons, List.not_mem_nil, or_false] at hx
      subst hx
      norm_num)
    (by intro hne; norm_num [List.getLast]) t ht
  simpa using h

/-- Counterexample to C5 as stated: for `X = [1]` every schedule entry
equals the horizon end `dim = 1`, yet the simulation applies the
fox-killing transition there — with the identity propagator the final
state is `(10, 4)`, not the untouched `pop0 = (10, 5)`. -/
theorem transition_applied_at_horizon_end :
    schedule [(1 : ℚ)] = [1, 1]
      ∧ ((List.length [(1 : ℚ)] : ℕ) : ℚ) = 1
      ∧ (simLoop (fun _ _ s => s) ⟨0, pop0⟩ (schedule [(1 : ℚ)])).y
          = (10, 4)
      ∧ ((10 : ℚ), (4 : ℚ)) ≠ pop0 := by
  have hs : schedule [(1 : ℚ)] = [1, 1] := by
    norm_num [schedule, eventTimes, eventTimesAux]
  refine ⟨hs, by norm_num, ?_, ?_⟩
  · rw [hs]
    norm_num [simLoop, integrate, killFox, pop0]
  · simp only [pop0, ne_eq, Prod.mk.injEq]
    norm_num

/-! ## Claim C6: the scoring window and the returned value -/

/-- C6 (amended): the returned fitness is the negative of the `max`-fold
of the reward (rabbit) samples seeded with `0` (the code initialises
`max_rabbits = 0`), taken over 50 evenly spaced sample times from `dim`
to `dim + 5` whose `k`-th time is `dim + 5k/49` — the first sample is the
phase-end time `dim`, the last is `dim + 5` — and the scoring loop
applies no discrete transition, only chained `integrate` calls. It
coincides with the plain negated maximum of the samples only when some
sample is nonnegative. -/
theorem fitness_neg_floored_max (prop : Propagator) (X : List ℚ) :
    fitnessVal prop X
        = Neg.neg ((sampleRewards prop
            (simLoop prop ⟨0, pop0⟩ (schedule X))
            (linspace (X.length : ℚ) ((X.length : ℚ) + 5) 50)).foldl max 0)
      ∧ (linspace (X.length : ℚ) ((X.length : ℚ) + 5) 50).length = 50
      ∧ (∀ k : ℕ, k < 50 →
          (linspace (X.length : ℚ) ((X.length : ℚ) + 5) 50)[k]?
            = some ((X.length : ℚ) + 5 * k / 49))
      ∧ (linspace (X.length : ℚ) ((X.length : ℚ) + 5) 50)[0]?
          = some (X.length : ℚ)
      ∧ (linspace (X.length : ℚ) ((X.length : ℚ) + 5) 50)[49]?
          = some ((X.length : ℚ) + 5)
      ∧ (∀ (I : IState) (m t : ℚ) (rest : List ℚ),
          scoreLoop prop I m (t :: rest)
            = scoreLoop prop (integrate prop I t)
                (max m (integrate prop I t).y.1) rest) := by
  have hget : ∀ k : ℕ, k < 50 →
      (linspace (X.length : ℚ) ((X.length : ℚ) + 5) 50)[k]?
        = some ((X.length : ℚ) + 5 * k / 49) := by
    intro k hk
    rw [linspace_getElem _ _ 50 k hk]
    congr 2
    ring
  refine ⟨?_, linspace_length _ _ _, hget, ?_, ?_, ?_⟩
  · simp only [fitnessVal, fitnessCore]
    rw [scoreLoop_eq_foldl]
  · have h := hget 0 (by norm_num)
    rw [h]
    norm_num
  · have h := hget 49 (by norm_num)
    rw [h]
    norm_num
  · intro I m t rest
    simp [scoreLoop]

/-- Witness for C6: the sample-time formula at a concrete index. -/
theorem fitness_neg_floored_max_witness :
    (linspace 0 5 50)[7]? = some (5 / 7 : ℚ) := by
  have h := (fitness_neg_floored_max (fun _ _ s => s) []).2.2.1 7 (by norm_num)
  norm_num at h ⊢
  exact h

/-- Counterexample to C6 as stated: with an integrator that reports a
negative rabbit population at every sample, the code returns `0` (the
running maximum is seeded with `0`), while the negated maximum over the
samples themselves would be `3`. -/
theorem fitness_ne_neg_max_of_samples :
    fitnessVal (fun _ _ _ => ((-3 : ℚ), 1)) [] = 0
      ∧ specScore (fun _ _ _ => ((-3 : ℚ), 1)) [] = 3
      ∧ (0 : ℚ) ≠ 3 := by
  refine ⟨?_, ?_, by norm_num⟩
  · simp only [fitnessVal, fitnessCore]
    rw [scoreLoop_eq_foldl, sampleRewards_const, linspace_length,
      foldl_max_replicate]
    norm_num
  · simp only [specScore]
    rw [sampleRewards_const, linspace_length]
    have h50 : List.replicate 50 ((-3 : ℚ), (1 : ℚ)).1
        = (-3 : ℚ) :: List.replicate 49 ((-3 : ℚ), (1 : ℚ)).1 := rfl
    rw [h50]
    simp only [List.headI_cons]
    rw [show ((-3 : ℚ) :: List.replicate 49 ((-3 : ℚ), (1 : ℚ)).1)
        = List.replicate 50 (-3 : ℚ) from rfl]
    rw [foldl_max_replicate]
    norm_num

/-! ## Claim C7: the best-value cell -/

/-- C7: over any sequence of bookkeeping steps starting at the sentinel
`1E99`, the best value equals the `min`-fold of the accepted values
(those below the rejection threshold); each step updates it only when the
new value is strictly lower than the current best and strictly below the
threshold; it never increases; and whenever some value was accepted it is
the minimum of the accepted values. -/
theorem bval_min_of_accepted :
    (∀ (vs : List ℚ) (e : ℕ),
        (vs.foldl record ⟨BIG, e⟩).bval
          = (vs.filter (fun v => v < BIG)).foldl min BIG)
      ∧ (∀ (s : Shared) (v : ℚ),
          (record s v).bval
            = if v < s.bval ∧ v < BIG then v else s.bval)
      ∧ (∀ (s : Shared) (v : ℚ), (record s v).bval ≤ s.bval)
      ∧ (∀ (vs : List ℚ) (s : Shared), (vs.foldl record s).bval ≤ s.bval)
      ∧ (∀ (vs : List ℚ) (e : ℕ),
          vs.filter (fun v => v < BIG) ≠ [] →
            (vs.foldl record ⟨BIG, e⟩).bval
                ∈ vs.filter (fun v => v < BIG)
              ∧ ∀ u ∈ vs.filter (fun v => v < BIG),
                  (vs.foldl record ⟨BIG, e⟩).bval ≤ u) := by
  have hstep : ∀ (s : Shared) (v : ℚ),
      (record s v).bval = if v < s.bval ∧ v < BIG then v else s.bval := by
    intro s v
    by_cases h : v < s.bval ∧ v < BIG <;> simp [record, h]
  have hmono : ∀ (s : Shared) (v : ℚ), (record s v).bval ≤ s.bval := by
    intro s v
    rw [hstep]
    by_cases h : v < s.bval ∧ v < BIG
    · rw [if_pos h]; exact le_of_lt h.1
    · rw [if_neg h]
  have hfold : ∀ (vs : List ℚ) (s : Shared),
      (vs.foldl record s).bval ≤ s.bval := by
    intro vs
    induction vs with
    | nil => intro s; exact le_refl _
    | cons v rest ih =>
        intro s
        exact le_trans (ih (record s v)) (hmono s v)
  refine ⟨fun vs e => record_foldl_bval vs BIG e, hstep, hmono, hfold, ?_⟩
  intro vs e hne
  rw [record_foldl_bval vs BIG e]
  obtain ⟨hle, hall, hmem⟩ :=
    foldl_min_facts (vs.filter (fun v => v < BIG)) BIG
  refine ⟨?_, hall⟩
  rcases hmem with h | h
  · obtain ⟨u, hu⟩ := List.exists_mem_of_ne_nil _ hne
    have hub : u < BIG := by
      have := (List.mem_filter.mp hu).2
      exact of_decide_eq_true this
    have := hall u hu
    rw [h] at this
    exact absurd (lt_of_le_of_lt this hub) (lt_irrefl BIG)
  · exact h

/-- Witness for C7 on a concrete run: one value above the threshold is
ignored, the best value is the minimum of the two accepted ones. -/
theorem bval_min_of_accepted_witness :
    ([(3 : ℚ), BIG + 1, 5].foldl record ⟨BIG, 0⟩).bval
        ∈ [(3 : ℚ), BIG + 1, 5].filter (fun v => v < BIG)
      ∧ ∀ u ∈ [(3 : ℚ), BIG + 1, 5].filter (fun v => v < BIG),
          ([(3 : ℚ), BIG + 1, 5].foldl record ⟨BIG, 0⟩).bval ≤ u := by
  refine bval_min_of_accepted.2.2.2.2 [3, BIG + 1, 5] 0 ?_
  have hf : [(3 : ℚ), BIG + 1, 5].filter (fun v => v < BIG) = [3, 5] := by
    simp only [List.filter_cons, List.filter_nil]
    norm_num [BIG]
  rw [hf]
  simp

/-! ## Claim C8: the evaluation counter -/

/-- C8 (amended): under sequential execution each completed call
increments the counter by exactly one, so after `N` completed calls it
equals its initial value plus `N`, and it never decreases. The
exactly-once guarantee does not extend to concurrent calls: the increment
is an unsynchronised read-modify-write on an `mp.RawValue` (no lock), so
interleaved increments can be lost (see the counterexample). -/
theorem evalCount_sequential_exact :
    (∀ (s : Shared) (v : ℚ), (record s v).evals = s.evals + 1)
      ∧ (∀ (vs : List ℚ) (s : Shared),
          (vs.foldl record s).evals = s.evals + vs.length)
      ∧ (∀ (vs : List ℚ) (s : Shared),
          s.evals ≤ (vs.foldl record s).evals) := by
  refine ⟨record_evals, fun vs s => record_foldl_evals vs s, ?_⟩
  intro vs s
  rw [record_foldl_evals vs s]
  omega

/-- Counterexample to C8 as stated: two concurrent completed increments
whose reads both happen before either write leave the shared counter at
`1`, not `2` — an interleaving the lock-free `RawValue` increment
permits. -/
theorem evalCount_lost_update :
    runInc [IncAction.readA, IncAction.readB, IncAction.writeA,
        IncAction.writeB] ⟨0, 0, 0⟩ = ⟨1, 0, 0⟩
      ∧ (1 : ℕ) ≠ 2 := by
  exact ⟨rfl, by norm_num⟩

/-! ## Claim C9: scenario A's sign -/

/-- C9 (amended): with `dim = 20` and every entry `-0.5` no interventions
are decoded (the schedule is the terminal-only `[20]`), and the returned
fitness is nonpositive for every integrator — it is the negated running
maximum seeded with `0`, so a positive return value is impossible; the
"specific positive value" of the claim can only be the peak rabbit
population itself, i.e. the negation of the returned fitness. -/
theorem scenarioA_fitness_nonpos :
    (∀ prop : Propagator,
        fitnessVal prop (List.replicate 20 (-1/2 : ℚ)) ≤ 0)
      ∧ schedule (List.replicate 20 (-1/2 : ℚ)) = [(20 : ℚ)] := by
  constructor
  · intro prop
    exact fitnessCore_nonpos prop pop0 _
  · have h : ∀ x ∈ List.replicate 20 (-1/2 : ℚ), x ≤ 0 := by
      intro x hx
      rw [List.eq_of_mem_replicate hx]
      norm_num
    unfold schedule eventTimes
    rw [eventTimesAux_of_nonpos _ h 0]
    simp

/-- Counterexample to C9 as stated: no integrator whatsoever can make the
evaluation of scenario A return a positive value. -/
theorem scenarioA_fitness_not_positive :
    ¬ ∃ prop : Propagator,
        0 < fitnessVal prop (List.replicate 20 (-1/2 : ℚ)) := by
  rintro ⟨prop, h⟩
  exact absurd h (not_lt.mpr (fitnessCore_nonpos prop pop0 _))

/-! ## Claim C10: the frame of one fitness call -/

/-- C10: a `fitness` call leaves the model parameters, the initial
population and the bounds unchanged; its only effects on the shared data
are the increment of the evaluation count and, exactly when the computed
value is strictly below both the current best and the threshold, the
lowering of the best value to the returned value. -/
theorem fitnessG_frame (mkProp : ℚ → ℚ → ℚ → ℚ → Propagator)
    (g : Globals) (X : List ℚ) :
    (fitnessG mkProp g X).2.ga = g.ga
      ∧ (fitnessG mkProp g X).2.gb = g.gb
      ∧ (fitnessG mkProp g X).2.gc = g.gc
      ∧ (fitnessG mkProp g X).2.gd = g.gd
      ∧ (fitnessG mkProp g X).2.gpop0 = g.gpop0
      ∧ (fitnessG mkProp g X).2.lower = g.lower
      ∧ (fitnessG mkProp g X).2.upper = g.upper
      ∧ (fitnessG mkProp g X).2.gevals = g.gevals + 1
      ∧ ((fitnessG mkProp g X).2.gbval = g.gbval
          ∨ ((fitnessG mkProp g X).2.gbval = (fitnessG mkProp g X).1
              ∧ (fitnessG mkProp g X).1 < g.gbval
              ∧ (fitnessG mkProp g X).1 < BIG))
      ∧ (fitnessG mkProp g X).1
          = fitnessCore (mkProp g.ga g.gb g.gc g.gd) g.gpop0 X := by
  by_cases h : fitnessCore (mkProp g.ga g.gb g.gc g.gd) g.gpop0 X < g.gbval
      ∧ fitnessCore (mkProp g.ga g.gb g.gc g.gd) g.gpop0 X < BIG
  · simp [fitnessG, if_pos h, h.1, h.2]
  · simp [fitnessG, if_neg h]

end Lotka
